import Mathlib

set_option maxHeartbeats 1600000

/-!
Shallow embedding of cloudinit/url_helper.py: the functions `readurl`,
`wait_for_url` (with its inner `timeup`) and `_cleanurl`.

The transport collaborator (the requests library) and the wall clock are
modelled as oracles: a function from attempt index to that attempt's
outcome, and a function giving the amount the wall clock advances at each
clock-reading event.  Clock readings are Nat, timeouts and max_wait are
Int, matching the integer truncation (int(...)) the source applies to
every duration it computes.  The URL-parsing collaborator (the Python 2
urlparse module) is modelled on List Char.
-/

/-- Success test for an HTTP status, modelling the requests collaborator:
Response.ok and raise_for_status treat exactly the 4xx and 5xx codes as
errors. -/
def okStatus (code : Nat) : Bool := code < 400

/-- Response of the transport collaborator as consumed by readurl:
status code and body bytes. -/
structure Response where
  status_code : Nat
  contents : List Nat
deriving DecidableEq, Inhabited

/-- One call of requests.request: either a response or a raised
RequestException (identified by a numeric id). -/
inductive Attempt where
  | resp (code : Nat) (contents : List Nat)
  | raiseExc (e : Nat)
deriving DecidableEq

/-- Exceptions recorded in readurl's excps list: transport-level
RequestExceptions, and the HTTPError that r.raise_for_status() raises on
a non-success status (HTTPError is itself a RequestException, so both are
caught by the same handler in the source). -/
inductive Exc where
  | transport (e : Nat)
  | httpError (code : Nat)
deriving DecidableEq

/-- The exception a failing attempt gets recorded as. -/
def Attempt.exc : Attempt → Exc
  | .raiseExc e => .transport e
  | .resp c _ => .httpError c

/-- readurl's per-attempt success condition: no transport exception and,
when check_status is set, a success-range status. -/
def attemptSucceeds (check_status : Bool) : Attempt → Bool
  | .raiseExc _ => false
  | .resp c _ => !check_status || okStatus c

/-- What a call of readurl produces: a response, a raised exception, or
the trailing `return None`. -/
inductive ReadResult where
  | ok (r : Response)
  | err (e : Exc)
  | none_
deriving DecidableEq

/-- Result of running readurl together with its observable behaviour:
number of transport attempts issued, recorded exceptions, and the
inter-attempt sleeps performed. -/
structure RunOutcome where
  result : ReadResult
  attempts : Nat
  excps : List Exc
  sleeps : List Int
deriving DecidableEq

/-- manual_tries = 1; if retries: manual_tries = max(int(retries) + 1, 1). -/
def manual_tries (retries : Int) : Nat :=
  if retries ≠ 0 then (max (retries + 1) 1).toNat else 1

/-- The attempt loop of readurl (`for i in range(0, manual_tries)`), with
`i` the next attempt index and `fuel` the number of remaining attempts.
A successful attempt returns the response at once; a failing attempt
appends its exception to excps and, when further attempts remain
(i + 1 < manual_tries) and sec_between > 0, sleeps sec_between.
On exhaustion: `if excps: raise excps[-1]` else `return None`. -/
def readurlLoop (transport : Nat → Attempt) (check_status : Bool)
    (sec_between : Int) :
    Nat → Nat → List Exc → List Int → RunOutcome
  | i, 0, excps, sleeps =>
    { result := match excps.getLast? with
                | some e => .err e
                | none => .none_
      attempts := i, excps := excps, sleeps := sleeps }
  | i, fuel + 1, excps, sleeps =>
    match transport i with
    | .resp c b =>
      if check_status && !okStatus c then
        readurlLoop transport check_status sec_between (i + 1) fuel
          (excps ++ [Exc.httpError c])
          (if 0 < fuel ∧ 0 < sec_between then sleeps ++ [sec_between] else sleeps)
      else
        { result := .ok { status_code := c, contents := b },
          attempts := i + 1, excps := excps, sleeps := sleeps }
    | .raiseExc e =>
      readurlLoop transport check_status sec_between (i + 1) fuel
        (excps ++ [Exc.transport e])
        (if 0 < fuel ∧ 0 < sec_between then sleeps ++ [sec_between] else sleeps)

/-- readurl: sec_between = -1 when None was passed, then the attempt
loop over manual_tries attempts. -/
def readurl (transport : Nat → Attempt) (retries : Int)
    (sec_between : Option Int) (check_status : Bool) : RunOutcome :=
  readurlLoop transport check_status (sec_between.getD (-1)) 0
    (manual_tries retries) [] []

/-! ## The URL-parsing collaborator (Python 2.7 urlparse module)

External to the repository; modelled on List Char from the stdlib
source.  The IPv6-bracket ValueError of the stdlib is not modelled (the
collaborator is treated as total). -/

def scheme_chars : List Char :=
  "abcdefghijklmnopqrstuvwxyzABCDEFGHIJKLMNOPQRSTUVWXYZ0123456789+-.".data

/-- Split at the first occurrence of c, dropping the separator; none when
c does not occur.  Models str.split(c, 1) / str.find(c). -/
def splitOnFirst (c : Char) : List Char → Option (List Char × List Char)
  | [] => none
  | a :: rest =>
    if a = c then some ([], rest)
    else match splitOnFirst c rest with
      | some (x, y) => some (a :: x, y)
      | none => none

/-- _splitnetloc: the netloc extends up to the first of a slash, question
mark or hash character. -/
def splitnetloc (l : List Char) : List Char × List Char :=
  (l.takeWhile (fun c => !(c == '/' || c == '?' || c == '#')),
   l.dropWhile (fun c => !(c == '/' || c == '?' || c == '#')))

/-- The scheme-splitting step of urlsplit: a colon at index i > 0 whose
prefix is either exactly "http" (the fast path) or consists of scheme
characters with the remainder not a pure port number makes that prefix
the (lowercased) scheme. -/
def urlsplitScheme (url : List Char) (scheme0 : List Char) :
    List Char × List Char :=
  match splitOnFirst ':' url with
  | none => (scheme0, url)
  | some (pre, rest) =>
    if pre = [] then (scheme0, url)
    else if pre = "http".data then (pre.map Char.toLower, rest)
    else if pre.all (fun c => scheme_chars.contains c) then
      if rest = [] ∨ ¬ (rest.all Char.isDigit) then
        (pre.map Char.toLower, rest)
      else (scheme0, url)
    else (scheme0, url)

structure SplitResult where
  scheme : List Char
  netloc : List Char
  path : List Char
  query : List Char
  fragment : List Char
deriving DecidableEq

/-- urlsplit(url, scheme, allow_fragments=True): scheme split, then
"//"-led netloc, then fragment, then query. -/
def urlsplit (url : List Char) (scheme0 : List Char) : SplitResult :=
  let p1 := urlsplitScheme url scheme0
  let scheme := p1.1
  let u1 := p1.2
  let p2 := if u1.take 2 = "//".data then splitnetloc (u1.drop 2) else ([], u1)
  let netloc := p2.1
  let u2 := p2.2
  let p3 := match splitOnFirst '#' u2 with
    | some q => q
    | none => (u2, [])
  let u3 := p3.1
  let fragment := p3.2
  let p4 := match splitOnFirst '?' u3 with
    | some q => q
    | none => (u3, [])
  { scheme := scheme, netloc := netloc, path := p4.1, query := p4.2,
    fragment := fragment }

def uses_params : List (List Char) :=
  ["ftp".data, "hdl".data, "prospero".data, "http".data, "imap".data,
   "https".data, "shttp".data, "rtsp".data, "rtspu".data, "sip".data,
   "sips".data, "mms".data, "".data, "sftp".data]

/-- Index of the last occurrence of c (url.rfind); only used when c
occurs. -/
def rfindIdx (c : Char) (l : List Char) : Nat :=
  l.length - 1 - (l.reverse.findIdx (fun a => a == c))

/-- First index ≥ start holding c (url.find(c, start)). -/
def findFrom (c : Char) (start : Nat) (l : List Char) : Option Nat :=
  match splitOnFirst c (l.drop start) with
  | some q => some (start + q.1.length)
  | none => none

/-- _splitparams: split params off the last path segment. -/
def splitparams (url : List Char) : List Char × List Char :=
  if url.contains '/' then
    match findFrom ';' (rfindIdx '/' url) url with
    | some i => (url.take i, url.drop (i + 1))
    | none => (url, [])
  else
    match findFrom ';' 0 url with
    | some i => (url.take i, url.drop (i + 1))
    | none => (url, [])

structure ParseResult where
  scheme : List Char
  netloc : List Char
  path : List Char
  params : List Char
  query : List Char
  fragment : List Char
deriving DecidableEq

/-- urlparse(url, scheme): urlsplit, then params split off the path when
the scheme uses params. -/
def urlparse (url : List Char) (scheme0 : List Char) : ParseResult :=
  let sp := urlsplit url scheme0
  if uses_params.contains sp.scheme && sp.path.contains ';' then
    let q := splitparams sp.path
    { scheme := sp.scheme, netloc := sp.netloc, path := q.1, params := q.2,
      query := sp.query, fragment := sp.fragment }
  else
    { scheme := sp.scheme, netloc := sp.netloc, path := sp.path,
      params := [], query := sp.query, fragment := sp.fragment }

/-- urlunsplit of the Python 2.7 stdlib. -/
def urlunsplit (scheme netloc url query fragment : List Char) : List Char :=
  let u1 :=
    if netloc ≠ [] ∨ (url ≠ [] ∧ url.take 2 = "//".data) then
      '/' :: '/' ::
        (netloc ++ (if url ≠ [] ∧ url.take 1 ≠ "/".data then '/' :: url else url))
    else url
  let u2 := if scheme ≠ [] then scheme ++ ':' :: u1 else u1
  let u3 := if query ≠ [] then u2 ++ '?' :: query else u2
  if fragment ≠ [] then u3 ++ '#' :: fragment else u3

/-- urlunparse of the Python 2.7 stdlib. -/
def urlunparse (p : ParseResult) : List Char :=
  urlunsplit p.scheme p.netloc
    (if p.params ≠ [] then p.path ++ ';' :: p.params else p.path)
    p.query p.fragment

/-- _cleanurl: parsed_url = list(urlparse(url, scheme='http')); when the
netloc is empty and the path is not, swap them; urlunparse the result. -/
def _cleanurl (url : List Char) : List Char :=
  let p := urlparse url ("http".data)
  urlunparse
    (if p.netloc = [] ∧ p.path ≠ [] then
       { p with netloc := p.path, path := [] }
     else p)

/-! ## The wait_for_url poller -/

/-- Outcome of one poll attempt as seen by wait_for_url's try block: a
response from readurl (called with check_status=False, retries=0, hence
one transport attempt), a raised RequestException, or any other
exception (e.g. raised by the headers callback). -/
inductive FetchOutcome where
  | resp (code : Nat) (contents : List Nat)
  | reqExc (e : Nat)
  | otherExc (e : Nat)
deriving DecidableEq, Inhabited

/-- The exception object bound to e for a failed attempt. -/
inductive PExc where
  | valueError (reason : String)
  | requestError (e : Nat)
  | otherError (e : Nat)
deriving DecidableEq

/-- Oracles for one run of wait_for_url: the clock increment applied at
the k-th clock-reading event, and the outcome of the k-th fetch. -/
structure PollEnv where
  incs : Nat → Nat
  fetch : Nat → FetchOutcome

/-- Everything observable about one attempt of the polling loop. -/
structure AttemptRecord where
  roundIdx : Nat
  url : String
  now : Nat
  tmoBefore : Option Int
  effTimeout : Option Int
  outcome : FetchOutcome
  reason : Option String
deriving DecidableEq, Inhabited

/-- Mutable state of one wait_for_url invocation, plus the logs of its
observable actions (attempts, status_cb calls, exception_cb calls,
inter-round sleeps). -/
structure PollSt where
  clock : Nat
  readCnt : Nat
  fetchCnt : Nat
  timeout : Option Int
  trace : List AttemptRecord
  statusMsgs : List String
  excCalls : List (String × PExc)
  sleeps : List Nat
deriving DecidableEq

/-- One time.time() call: yields the current clock, after which the wall
clock advances by an oracle-chosen amount. -/
def readTime (env : PollEnv) (s : PollSt) : Nat × PollSt :=
  (s.clock,
   { s with clock := s.clock + env.incs s.readCnt, readCnt := s.readCnt + 1 })

/-- timeup(max_wait, start_time) = (max_wait <= 0 or max_wait is None) or
(time.time() - start_time > max_wait).  Python short-circuits: the clock
is read only when max_wait is a positive number (Python 2: None <= 0 is
True). -/
def timeup (maxWait : Option Int) (start : Nat) (env : PollEnv)
    (s : PollSt) : Bool × PollSt :=
  match maxWait with
  | none => (true, s)
  | some m =>
    if m ≤ 0 then (true, s)
    else
      let p := readTime env s
      (decide ((p.1 : Int) - (start : Int) > m), p.2)

/-- Classification of an attempt outcome inside the try block: empty
body and bad status become ValueError reasons, RequestExceptions become
"request error", anything else "unexpected error"; none means the
attempt satisfied the success condition (non-empty body, ok status). -/
def attemptEval : FetchOutcome → Option String
  | .resp c b =>
    if b = [] then some ("empty response [" ++ toString c ++ "]")
    else if !okStatus c then some ("bad status code [" ++ toString c ++ "]")
    else none
  | .reqExc e => some ("request error [" ++ toString e ++ "]")
  | .otherExc e => some ("unexpected error [" ++ toString e ++ "]")

/-- The exception object a failing attempt leaves in e. -/
def attemptExc : FetchOutcome → PExc
  | .resp c b => .valueError ((attemptEval (.resp c b)).getD "")
  | .reqExc e => .requestError e
  | .otherExc e => .otherError e

/-- "%s" rendering of max_wait in the status message. -/
def maxWaitStr : Option Int → String
  | none => "None"
  | some m => toString m

/-- What one url iteration of the inner for loop does to control flow. -/
inductive StepRes where
  | success (url : String)
  | cont
  | brk
deriving DecidableEq

/-- The attempt record created when the try block runs with state s:
the fetch consumes oracle index s.fetchCnt and is issued with the
current timeout variable. -/
def stepEntry (env : PollEnv) (n : Nat) (url : String) (now : Nat)
    (tb : Option Int) (s : PollSt) : AttemptRecord :=
  { roundIdx := n, url := url, now := now, tmoBefore := tb,
    effTimeout := s.timeout, outcome := env.fetch s.fetchCnt,
    reason := attemptEval (env.fetch s.fetchCnt) }

/-- The try block and the failure reporting that follows it: on success
return the url; on failure read the clock for time_taken, build the
status message, call status_cb and (when given) exception_cb. -/
def attemptStep (env : PollEnv) (maxWait : Option Int) (useExcCb : Bool)
    (n : Nat) (url : String) (now : Nat) (tb : Option Int) (start : Nat)
    (s : PollSt) : StepRes × PollSt :=
  let entry := stepEntry env n url now tb s
  let s1 := { s with fetchCnt := s.fetchCnt + 1, trace := s.trace ++ [entry] }
  match entry.reason with
  | none => (.success url, s1)
  | some reason =>
    let p := readTime env s1
    let timeTaken := p.1 - start
    let msg := "Calling '" ++ url ++ "' failed [" ++ toString timeTaken ++ "/"
        ++ maxWaitStr maxWait ++ "s]: " ++ reason
    let s2 := { p.2 with statusMsgs := p.2.statusMsgs ++ [msg] }
    (.cont,
     if useExcCb then
       { s2 with excCalls := s2.excCalls ++ [(msg, attemptExc (env.fetch s.fetchCnt))] }
     else s2)

/-- if timeout and (now + timeout > (start_time + max_wait)):
timeout = int((start_time + max_wait) - now).  (Reachable only when
max_wait is a positive number, since timeup was False.) -/
def shrinkTimeout (maxWait : Option Int) (start now : Nat) (s : PollSt) :
    PollSt :=
  match maxWait, s.timeout with
  | some m, some t =>
    if t ≠ 0 ∧ (now : Int) + t > (start : Int) + m then
      { s with timeout := some ((start : Int) + m - (now : Int)) }
    else s
  | _, _ => s

/-- One url iteration of the for loop: read now; from round 1 on, break
when the budget is exhausted, else shrink the timeout when issuing the
request at the current timeout would run past start_time + max_wait;
then the try block. -/
def urlStep (env : PollEnv) (maxWait : Option Int) (start : Nat)
    (useExcCb : Bool) (n : Nat) (url : String) (s : PollSt) :
    StepRes × PollSt :=
  let p1 := readTime env s
  let now := p1.1
  let s1 := p1.2
  if n = 0 then attemptStep env maxWait useExcCb n url now s1.timeout start s1
  else
    let p2 := timeup maxWait start env s1
    if p2.1 then (.brk, p2.2)
    else
      let s2 := p2.2
      attemptStep env maxWait useExcCb n url now s2.timeout start
        (shrinkTimeout maxWait start now s2)

/-- The for loop over the candidate urls. -/
def runRound (env : PollEnv) (maxWait : Option Int) (start : Nat)
    (useExcCb : Bool) (n : Nat) : List String → PollSt →
    Option String × PollSt
  | [], s => (none, s)
  | url :: rest, s =>
    match urlStep env maxWait start useExcCb n url s with
    | (.success u, s1) => (some u, s1)
    | (.brk, s1) => (none, s1)
    | (.cont, s1) => runRound env maxWait start useExcCb n rest s1

inductive PollResult where
  | success (url : String)
  | failure
  | fuelOut
deriving DecidableEq

/-- The while loop: sleep_time = loop_n / 5 + 1 is fixed at the start of
round loop_n; after a round with no success either the budget is
exhausted (return False) or the poller sleeps sleep_time and starts the
next round.  fuel bounds the number of rounds the model executes. -/
def pollLoop (env : PollEnv) (maxWait : Option Int) (useExcCb : Bool)
    (urls : List String) (start : Nat) :
    Nat → Nat → PollSt → PollResult × PollSt
  | _, 0, s => (.fuelOut, s)
  | n, fuel + 1, s =>
    let sleepT := n / 5 + 1
    match runRound env maxWait start useExcCb n urls s with
    | (some u, s1) => (.success u, s1)
    | (none, s1) =>
      let p := timeup maxWait start env s1
      if p.1 then (.failure, p.2)
      else
        pollLoop env maxWait useExcCb urls start (n + 1) fuel
          { p.2 with clock := p.2.clock + sleepT,
                     sleeps := p.2.sleeps ++ [sleepT] }

def initSt (clock0 : Nat) (tmo : Option Int) : PollSt :=
  { clock := clock0, readCnt := 0, fetchCnt := 0, timeout := tmo,
    trace := [], statusMsgs := [], excCalls := [], sleeps := [] }

/-- wait_for_url: capture start_time, then the polling loop from round 0. -/
def wait_for_url (env : PollEnv) (urls : List String)
    (maxWait : Option Int) (tmo : Option Int) (useExcCb : Bool)
    (fuel : Nat) (clock0 : Nat) : PollResult × PollSt :=
  let p := readTime env (initSt clock0 tmo)
  pollLoop env maxWait useExcCb urls p.1 0 fuel p.2

/-- Rounds enough for the loop to reach its budget check: one round when
max_wait is None or non-positive, max_wait + 2 otherwise (each round
sleeps at least one unit). -/
def sufficientFuel : Option Int → Nat
  | none => 1
  | some m => m.toNat + 2

/-! ## Concrete inputs used by the witnesses -/

def t1 : Nat → Attempt := fun i => if i = 0 then .raiseExc 5 else .resp 200 [1]

def t2 : Nat → Attempt := fun i => .raiseExc i

/-- Clock frozen between events; every fetch fails with a
RequestException. -/
def envA : PollEnv := { incs := fun _ => 0, fetch := fun _ => .reqExc 0 }

/-- First fetch: empty 200 body; later fetches: non-empty 200 body. -/
def envB : PollEnv :=
  { incs := fun _ => 0,
    fetch := fun k => if k = 0 then .resp 200 [] else .resp 200 [7] }

/-- Correspondence between the callback logs and the failed attempts of
the trace: one status message per failed attempt, exception_cb called
with exactly the status messages when enabled and never otherwise. -/
def cbInv (ucb : Bool) (s : PollSt) : Prop :=
  s.statusMsgs.length
      = (s.trace.filter (fun e => e.reason.isSome)).length
  ∧ (ucb = true → s.excCalls.map Prod.fst = s.statusMsgs)
  ∧ (ucb = false → s.excCalls = [])

/-! ## Theorems: readurl -/

theorem manual_tries_natCast (r : Nat) : manual_tries (r : Int) = r + 1 := by
  unfold manual_tries
  rcases Nat.eq_zero_or_pos r with h | h
  · subst h; simp
  · have hne : (r : Int) ≠ 0 := by
      simpa using Nat.pos_iff_ne_zero.mp h
    rw [if_pos hne]
    omega

theorem manual_tries_pos (retries : Int) : 1 ≤ manual_tries retries := by
  unfold manual_tries
  split <;> omega

theorem readurlLoop_attempts_le (t : Nat → Attempt) (cs : Bool) (sb : Int) :
    ∀ fuel i excps sleeps,
      (readurlLoop t cs sb i fuel excps sleeps).attempts ≤ i + fuel := by
  intro fuel
  induction fuel with
  | zero => intro i excps sleeps; simp [readurlLoop]
  | succ n ih =>
    intro i excps sleeps
    simp only [readurlLoop]
    cases h : t i with
    | resp c b =>
      by_cases hc : (cs && !okStatus c) = true
      · simp only [hc, if_true]
        have := ih (i + 1) (excps ++ [Exc.httpError c])
          (if 0 < n ∧ 0 < sb then sleeps ++ [sb] else sleeps)
        omega
      · simp only [Bool.not_eq_true] at hc
        simp only [hc]
        simp
    | raiseExc e =>
      dsimp only
      have := ih (i + 1) (excps ++ [Exc.transport e])
        (if 0 < n ∧ 0 < sb then sleeps ++ [sb] else sleeps)
      omega

theorem readurlLoop_attempts_pos (t : Nat → Attempt) (cs : Bool) (sb : Int) :
    ∀ fuel i excps sleeps, 1 ≤ fuel →
      i + 1 ≤ (readurlLoop t cs sb i fuel excps sleeps).attempts := by
  intro fuel
  induction fuel with
  | zero => intro i _ _ h; omega
  | succ n ih =>
    intro i excps sleeps _
    simp only [readurlLoop]
    cases h : t i with
    | resp c b =>
      by_cases hc : (cs && !okStatus c) = true
      · simp only [hc, if_true]
        rcases Nat.eq_zero_or_pos n with hn | hn
        · subst hn; simp [readurlLoop]
        · have := ih (i + 1) (excps ++ [Exc.httpError c])
            (if 0 < n ∧ 0 < sb then sleeps ++ [sb] else sleeps) hn
          omega
      · simp only [Bool.not_eq_true] at hc
        simp only [hc]
        simp
    | raiseExc e =>
      dsimp only
      rcases Nat.eq_zero_or_pos n with hn | hn
      · subst hn; simp [readurlLoop]
      · have := ih (i + 1) (excps ++ [Exc.transport e])
          (if 0 < n ∧ 0 < sb then sleeps ++ [sb] else sleeps) hn
        omega

theorem readurlLoop_first_success (t : Nat → Attempt) (cs : Bool) (sb : Int) :
    ∀ fuel i excps sleeps j c b, i ≤ j → j < i + fuel →
      t j = Attempt.resp c b → (cs = true → okStatus c = true) →
      (∀ k, i ≤ k → k < j → attemptSucceeds cs (t k) = false) →
      (readurlLoop t cs sb i fuel excps sleeps).result
          = ReadResult.ok { status_code := c, contents := b }
      ∧ (readurlLoop t cs sb i fuel excps sleeps).attempts = j + 1 := by
  intro fuel
  induction fuel with
  | zero => intro i _ _ j c b hij hlt; omega
  | succ n ih =>
    intro i excps sleeps j c b hij hlt hj hok hfail
    rcases Nat.eq_or_lt_of_le hij with heq | hlt2
    · subst heq
      simp only [readurlLoop, hj]
      have hcond : (cs && !okStatus c) = false := by
        cases cs with
        | false => rfl
        | true => simp [hok rfl]
      simp [hcond]
    · have hfi : attemptSucceeds cs (t i) = false := hfail i le_rfl hlt2
      cases hti : t i with
      | raiseExc e =>
        simp only [readurlLoop, hti]
        exact ih (i + 1) _ _ j c b hlt2 (by omega) hj hok
          (fun k hk1 hk2 => hfail k (by omega) hk2)
      | resp c' b' =>
        rw [hti] at hfi
        have hcs : cs = true ∧ okStatus c' = false := by
          simp only [attemptSucceeds] at hfi
          constructor
          · cases cs with
            | true => rfl
            | false => simp at hfi
          · cases hok2 : okStatus c' with
            | false => rfl
            | true => rw [hok2] at hfi; simp at hfi
        have hcond : (cs && !okStatus c') = true := by
          rw [hcs.1, hcs.2]; rfl
        simp only [readurlLoop, hti, hcond, if_true]
        exact ih (i + 1) _ _ j c b hlt2 (by omega) hj hok
          (fun k hk1 hk2 => hfail k (by omega) hk2)

/-- C1: for every retry count r ≥ 0 and every inter-attempt delay,
readurl performs at most r + 1 attempts of the underlying request
(exactly 1 when r = 0) and returns the normalized response immediately
on the first attempt that succeeds (no transport exception, and a
success-range status when check_status is enabled), issuing no further
attempts after that. -/
theorem readurl_attempt_bound (transport : Nat → Attempt)
    (check_status : Bool) (sec_between : Option Int) (r : Nat) :
    (readurl transport (r : Int) sec_between check_status).attempts ≤ r + 1
    ∧ (readurl transport ((0 : Nat) : Int) sec_between check_status).attempts = 1
    ∧ (∀ j c b, j < r + 1 → transport j = Attempt.resp c b →
        (check_status = true → okStatus c = true) →
        (∀ k, k < j → attemptSucceeds check_status (transport k) = false) →
        (readurl transport (r : Int) sec_between check_status).result
            = ReadResult.ok { status_code := c, contents := b }
        ∧ (readurl transport (r : Int) sec_between check_status).attempts
            = j + 1) := by
  refine ⟨?_, ?_, ?_⟩
  · unfold readurl
    rw [manual_tries_natCast]
    simpa using readurlLoop_attempts_le transport check_status
      (sec_between.getD (-1)) (r + 1) 0 [] []
  · unfold readurl
    rw [manual_tries_natCast]
    have h1 := readurlLoop_attempts_le transport check_status
      (sec_between.getD (-1)) (0 + 1) 0 [] []
    have h2 := readurlLoop_attempts_pos transport check_status
      (sec_between.getD (-1)) (0 + 1) 0 [] [] (by omega)
    omega
  · intro j c b hj htj hok hfail
    unfold readurl
    rw [manual_tries_natCast]
    exact readurlLoop_first_success transport check_status
      (sec_between.getD (-1)) (r + 1) 0 [] [] j c b (Nat.zero_le j)
      (by omega) htj hok (fun k _ hk => hfail k hk)

theorem readurl_attempt_bound_witness :
    (readurl t1 ((2 : Nat) : Int) (some 1) true).result
        = ReadResult.ok { status_code := 200, contents := [1] }
    ∧ (readurl t1 ((2 : Nat) : Int) (some 1) true).attempts = 2 :=
  (readurl_attempt_bound t1 true (some 1) 2).2.2 1 200 [1] (by decide)
    (by decide) (by decide)
    (by
      intro k hk
      have hk0 : k = 0 := by omega
      subst hk0
      decide)

theorem attemptFails_resp (cs : Bool) (c : Nat) (b : List Nat)
    (h : attemptSucceeds cs (Attempt.resp c b) = false) :
    (cs && !okStatus c) = true := by
  simp only [attemptSucceeds] at h
  cases cs with
  | false => simp at h
  | true =>
    cases hok : okStatus c with
    | false => rfl
    | true => rw [hok] at h; simp at h

theorem readurlLoop_allFail (t : Nat → Attempt) (cs : Bool) (sb : Int) :
    ∀ fuel i acc sleeps,
      (∀ k, i ≤ k → k < i + fuel → attemptSucceeds cs (t k) = false) →
      (readurlLoop t cs sb i fuel acc sleeps).excps
          = acc ++ (List.range' i fuel).map (fun k => (t k).exc)
      ∧ (readurlLoop t cs sb i fuel acc sleeps).result
          = (match (acc ++ (List.range' i fuel).map
                (fun k => (t k).exc)).getLast? with
             | some e => ReadResult.err e
             | none => ReadResult.none_) := by
  intro fuel
  induction fuel with
  | zero => intro i acc sleeps _; simp [readurlLoop]
  | succ n ih =>
    intro i acc sleeps hfail
    have hfi := hfail i le_rfl (by omega)
    have hrange : List.range' i (n + 1) = i :: List.range' (i + 1) n :=
      List.range'_succ i n 1
    have hmaps : acc ++ (List.range' i (n + 1)).map (fun k => (t k).exc)
        = (acc ++ [(t i).exc]) ++ (List.range' (i + 1) n).map
            (fun k => (t k).exc) := by
      rw [hrange]
      simp
    cases hti : t i with
    | raiseExc e =>
      simp only [readurlLoop]
      rw [hti]
      dsimp only
      have := ih (i + 1) (acc ++ [Exc.transport e])
        (if 0 < n ∧ 0 < sb then sleeps ++ [sb] else sleeps)
        (fun k hk1 hk2 => hfail k (by omega) (by omega))
      rw [hmaps, hti]
      exact this
    | resp c b =>
      rw [hti] at hfi
      have hcond := attemptFails_resp cs c b hfi
      simp only [readurlLoop]
      rw [hti]
      dsimp only
      rw [if_pos hcond]
      have := ih (i + 1) (acc ++ [Exc.httpError c])
        (if 0 < n ∧ 0 < sb then sleeps ++ [sb] else sleeps)
        (fun k hk1 hk2 => hfail k (by omega) (by omega))
      rw [hmaps, hti]
      exact this

/-- C4: if every one of readurl's attempts fails with a transport-level
failure, then after exhausting all attempts readurl raises exactly the
failure recorded on the last attempt; the failures of all earlier
attempts are merely recorded in excps, not aggregated into the raised
failure. -/
theorem readurl_raises_last (transport : Nat → Attempt) (cs : Bool)
    (sb : Option Int) (r : Nat)
    (hfail : ∀ k, k < r + 1 → ∃ e, transport k = Attempt.raiseExc e) :
    (readurl transport (r : Int) sb cs).result
        = ReadResult.err ((transport r).exc)
    ∧ (readurl transport (r : Int) sb cs).excps
        = (List.range (r + 1)).map (fun k => (transport k).exc) := by
  have hfail' : ∀ k, 0 ≤ k → k < 0 + (r + 1) →
      attemptSucceeds cs (transport k) = false := by
    intro k _ hk
    obtain ⟨e, he⟩ := hfail k (by omega)
    rw [he]
    rfl
  have h := readurlLoop_allFail transport cs (sb.getD (-1)) (r + 1) 0 [] [] hfail'
  have hrange : List.range' 0 (r + 1) = List.range (r + 1) :=
    (List.range_eq_range' (r + 1)).symm
  have hlast : (([] : List Exc) ++ (List.range' 0 (r + 1)).map
      (fun k => (transport k).exc)).getLast? = some ((transport r).exc) := by
    rw [hrange, List.nil_append, List.range_succ, List.map_append]
    exact List.getLast?_concat _
  unfold readurl
  rw [manual_tries_natCast]
  refine ⟨?_, ?_⟩
  · rw [h.2, hlast]
  · rw [h.1, hrange, List.nil_append]

theorem readurl_raises_last_witness :
    (readurl t2 ((1 : Nat) : Int) (some 1) true).result
        = ReadResult.err (Exc.transport 1)
    ∧ (readurl t2 ((1 : Nat) : Int) (some 1) true).excps
        = [Exc.transport 0, Exc.transport 1] := by
  have h := readurl_raises_last t2 true (some 1) 1 (fun k _ => ⟨k, rfl⟩)
  exact ⟨h.1, by rw [h.2]; decide⟩

theorem readurlLoop_ne_none (t : Nat → Attempt) (cs : Bool) (sb : Int) :
    ∀ fuel i acc sleeps, 1 ≤ fuel ∨ acc ≠ [] →
      (readurlLoop t cs sb i fuel acc sleeps).result ≠ ReadResult.none_ := by
  intro fuel
  induction fuel with
  | zero =>
    intro i acc sleeps h
    have hacc : acc ≠ [] := by
      rcases h with h | h
      · omega
      · exact h
    simp only [readurlLoop]
    cases hl : acc.getLast? with
    | none => exact absurd (List.getLast?_eq_none_iff.mp hl) hacc
    | some e => simp
  | succ n ih =>
    intro i acc sleeps _
    simp only [readurlLoop]
    cases hti : t i with
    | resp c b =>
      dsimp only
      by_cases hc : (cs && !okStatus c) = true
      · rw [if_pos hc]
        exact ih (i + 1) (acc ++ [Exc.httpError c]) _ (Or.inr (by simp))
      · rw [if_neg hc]
        simp
    | raiseExc e =>
      dsimp only
      exact ih (i + 1) (acc ++ [Exc.transport e]) _ (Or.inr (by simp))

theorem readurlLoop_err_mem (t : Nat → Attempt) (cs : Bool) (sb : Int) :
    ∀ fuel i acc sleeps e,
      (readurlLoop t cs sb i fuel acc sleeps).result = ReadResult.err e →
      e ∈ (readurlLoop t cs sb i fuel acc sleeps).excps := by
  intro fuel
  induction fuel with
  | zero =>
    intro i acc sleeps e h
    simp only [readurlLoop] at h ⊢
    cases hl : acc.getLast? with
    | none => rw [hl] at h; simp at h
    | some a =>
      rw [hl] at h
      simp only [ReadResult.err.injEq] at h
      subst h
      have hmem : a ∈ acc.getLast? := by rw [hl]; rfl
      obtain ⟨hne, heq⟩ := List.mem_getLast?_eq_getLast hmem
      rw [heq]
      exact List.getLast_mem hne
  | succ n ih =>
    intro i acc sleeps e h
    simp only [readurlLoop] at h ⊢
    cases hti : t i with
    | resp c b =>
      rw [hti] at h
      dsimp only at h ⊢
      by_cases hc : (cs && !okStatus c) = true
      · rw [if_pos hc] at h ⊢
        exact ih (i + 1) _ _ e h
      · rw [if_neg hc] at h
        simp at h
    | raiseExc e2 =>
      rw [hti] at h
      dsimp only at h ⊢
      exact ih (i + 1) _ _ e h

/-- C8: for every call of readurl, at least one attempt is performed and
readurl either returns a response or raises one of the recorded
failures; the trailing `return None` branch after the attempt loop is
never the result. -/
theorem readurl_never_none (transport : Nat → Attempt) (cs : Bool)
    (sb : Option Int) (retries : Int) :
    1 ≤ (readurl transport retries sb cs).attempts
    ∧ (readurl transport retries sb cs).result ≠ ReadResult.none_
    ∧ ((∃ r, (readurl transport retries sb cs).result = ReadResult.ok r)
       ∨ (∃ e, (readurl transport retries sb cs).result = ReadResult.err e
            ∧ e ∈ (readurl transport retries sb cs).excps)) := by
  have hpos := manual_tries_pos retries
  refine ⟨?_, ?_, ?_⟩
  · unfold readurl
    have := readurlLoop_attempts_pos transport cs (sb.getD (-1))
      (manual_tries retries) 0 [] [] hpos
    omega
  · unfold readurl
    exact readurlLoop_ne_none transport cs (sb.getD (-1))
      (manual_tries retries) 0 [] [] (Or.inl hpos)
  · cases hres : (readurl transport retries sb cs).result with
    | ok r => exact Or.inl ⟨r, rfl⟩
    | none_ =>
      exact absurd hres (readurlLoop_ne_none transport cs (sb.getD (-1))
        (manual_tries retries) 0 [] [] (Or.inl hpos))
    | err e =>
      refine Or.inr ⟨e, rfl, ?_⟩
      unfold readurl at hres ⊢
      exact readurlLoop_err_mem transport cs (sb.getD (-1))
        (manual_tries retries) 0 [] [] e hres

/-! ## Theorems: _cleanurl -/

theorem splitOnFirst_eq_none (ch : Char) :
    ∀ l : List Char, (∀ c ∈ l, c ≠ ch) → splitOnFirst ch l = none := by
  intro l
  induction l with
  | nil => intro _; rfl
  | cons a rest ih =>
    intro h
    have ha : a ≠ ch := h a (by simp)
    simp only [splitOnFirst]
    rw [if_neg ha, ih (fun c hc => h c (by simp [hc]))]

theorem contains_eq_false (ch : Char) (l : List Char)
    (h : ∀ c ∈ l, c ≠ ch) : l.contains ch = false := by
  simpa using fun hm => (h ch hm rfl)

theorem take_two_ne_slashes (url : List Char) (h : ∀ c ∈ url, c ≠ '/') :
    url.take 2 ≠ "//".data := by
  intro heq
  cases url with
  | nil => simp at heq
  | cons a rest =>
    rw [List.take_succ_cons] at heq
    have ha : a = '/' := (List.cons.injEq _ _ _ _).mp heq |>.1
    exact h a (by simp) ha

/-- urlparse(url, 'http') on a bare hostname (no colon, slash, question
mark, hash or semicolon): the scheme defaults to http, the netloc is
empty, and the whole input lands in the path. -/
theorem urlparse_bare (url : List Char)
    (hchars : ∀ c ∈ url, ¬(c = ':' ∨ c = '/' ∨ c = '?' ∨ c = '#' ∨ c = ';')) :
    urlparse url ("http".data)
      = { scheme := "http".data, netloc := [], path := url, params := [],
          query := [], fragment := [] } := by
  have hcolon := splitOnFirst_eq_none ':' url
    (fun c hc he => hchars c hc (Or.inl he))
  have hhash := splitOnFirst_eq_none '#' url
    (fun c hc he => hchars c hc (by simp [he]))
  have hques := splitOnFirst_eq_none '?' url
    (fun c hc he => hchars c hc (by simp [he]))
  have hsemi := contains_eq_false ';' url
    (fun c hc he => hchars c hc (by simp [he]))
  have htake := take_two_ne_slashes url
    (fun c hc he => hchars c hc (by simp [he]))
  unfold urlparse urlsplit urlsplitScheme
  rw [hcolon]
  dsimp only
  rw [if_neg htake]
  dsimp only
  rw [hhash]
  dsimp only
  rw [hques]
  dsimp only
  rw [hsemi]
  simp

/-- C9: a URL whose parse has no authority but a non-empty path gets the
path segment moved into the authority position (with the scheme
defaulted to http by the parse), a bare hostname such as
www.example.com hence normalizes to http://www.example.com with an
empty path, and a URL that already has an authority keeps authority and
path unchanged through the unparse. -/
theorem cleanurl_netloc_swap (url : List Char) :
    ((urlparse url ("http".data)).netloc = [] →
        (urlparse url ("http".data)).path ≠ [] →
        _cleanurl url
          = urlunparse { urlparse url ("http".data) with
              netloc := (urlparse url ("http".data)).path, path := [] })
    ∧ ((urlparse url ("http".data)).netloc ≠ [] →
        _cleanurl url = urlunparse (urlparse url ("http".data)))
    ∧ ((∀ c ∈ url, ¬(c = ':' ∨ c = '/' ∨ c = '?' ∨ c = '#' ∨ c = ';')) →
        url ≠ [] → _cleanurl url = "http://".data ++ url)
    ∧ _cleanurl ("www.example.com".data) = "http://www.example.com".data := by
  refine ⟨?_, ?_, ?_, ?_⟩
  · intro h1 h2
    unfold _cleanurl
    dsimp only
    rw [if_pos ⟨h1, h2⟩]
  · intro h
    unfold _cleanurl
    dsimp only
    rw [if_neg (fun hc : _ ∧ _ => h hc.1)]
  · intro hchars hne
    unfold _cleanurl
    rw [urlparse_bare url hchars]
    dsimp only
    rw [if_pos ⟨rfl, hne⟩]
    unfold urlunparse urlunsplit
    dsimp only
    rw [if_neg (by simp)]
    rw [if_pos (Or.inl hne)]
    rw [if_neg (by simp)]
    rw [if_pos (by decide : ("http".data : List Char) ≠ [])]
    rw [if_neg (by simp), if_neg (by simp)]
    simp
  · decide

theorem cleanurl_netloc_swap_witness :
    _cleanurl ("host".data) = "http://host".data
    ∧ _cleanurl ("http://h/p".data)
        = urlunparse (urlparse ("http://h/p".data) ("http".data)) :=
  ⟨((cleanurl_netloc_swap ("host".data)).2.2.1 (by decide) (by decide)).trans
      (by decide),
   (cleanurl_netloc_swap ("http://h/p".data)).2.1 (by decide)⟩

/-! ## Theorems: wait_for_url -/

theorem attemptStep_shape (env : PollEnv) (mw : Option Int) (ucb : Bool)
    (n : Nat) (url : String) (now : Nat) (tb : Option Int) (start : Nat)
    (s : PollSt) :
    ∃ m,
      (attemptStep env mw ucb n url now tb start s).2.trace
          = s.trace ++ [stepEntry env n url now tb s]
      ∧ (attemptStep env mw ucb n url now tb start s).2.sleeps = s.sleeps
      ∧ s.clock ≤ (attemptStep env mw ucb n url now tb start s).2.clock
      ∧ (((attemptStep env mw ucb n url now tb start s).1 = .success url
           ∧ (stepEntry env n url now tb s).reason = none
           ∧ (attemptStep env mw ucb n url now tb start s).2.statusMsgs
               = s.statusMsgs
           ∧ (attemptStep env mw ucb n url now tb start s).2.excCalls
               = s.excCalls)
        ∨ ((attemptStep env mw ucb n url now tb start s).1 = .cont
           ∧ (stepEntry env n url now tb s).reason.isSome = true
           ∧ (attemptStep env mw ucb n url now tb start s).2.statusMsgs
               = s.statusMsgs ++ [m]
           ∧ (ucb = true →
                ∃ pe, (attemptStep env mw ucb n url now tb start s).2.excCalls
                   = s.excCalls ++ [(m, pe)])
           ∧ (ucb = false →
                (attemptStep env mw ucb n url now tb start s).2.excCalls
                   = s.excCalls))) := by
  unfold attemptStep
  dsimp only
  cases h : (stepEntry env n url now tb s).reason with
  | none =>
    refine ⟨"", ?_⟩
    dsimp only
    exact ⟨rfl, rfl, le_refl _, Or.inl ⟨rfl, rfl, rfl, rfl⟩⟩
  | some reason =>
    dsimp only
    cases ucb with
    | false =>
      refine ⟨_, rfl, rfl, by dsimp [readTime]; omega,
        Or.inr ⟨rfl, rfl, rfl, ?_, ?_⟩⟩
      · intro hu; exact absurd hu (by simp)
      · intro _; rfl
    | true =>
      refine ⟨_, rfl, rfl, by dsimp [readTime]; omega,
        Or.inr ⟨rfl, rfl, rfl, ?_, ?_⟩⟩
      · intro _; exact ⟨_, rfl⟩
      · intro hu; exact absurd hu (by simp)

theorem timeup_state (mw : Option Int) (start : Nat) (env : PollEnv)
    (s : PollSt) :
    (timeup mw start env s).2.trace = s.trace
    ∧ (timeup mw start env s).2.statusMsgs = s.statusMsgs
    ∧ (timeup mw start env s).2.excCalls = s.excCalls
    ∧ (timeup mw start env s).2.sleeps = s.sleeps
    ∧ (timeup mw start env s).2.timeout = s.timeout
    ∧ (timeup mw start env s).2.fetchCnt = s.fetchCnt
    ∧ s.clock ≤ (timeup mw start env s).2.clock := by
  unfold timeup
  cases mw with
  | none => exact ⟨rfl, rfl, rfl, rfl, rfl, rfl, le_refl _⟩
  | some m =>
    dsimp only
    by_cases hm : m ≤ 0
    · rw [if_pos hm]
      exact ⟨rfl, rfl, rfl, rfl, rfl, rfl, le_refl _⟩
    · rw [if_neg hm]
      dsimp [readTime]
      exact ⟨rfl, rfl, rfl, rfl, rfl, rfl, by omega⟩

theorem shrinkTimeout_state (mw : Option Int) (start now : Nat)
    (s : PollSt) :
    (shrinkTimeout mw start now s).trace = s.trace
    ∧ (shrinkTimeout mw start now s).statusMsgs = s.statusMsgs
    ∧ (shrinkTimeout mw start now s).excCalls = s.excCalls
    ∧ (shrinkTimeout mw start now s).sleeps = s.sleeps
    ∧ (shrinkTimeout mw start now s).clock = s.clock
    ∧ (shrinkTimeout mw start now s).fetchCnt = s.fetchCnt := by
  unfold shrinkTimeout
  cases mw with
  | none => exact ⟨rfl, rfl, rfl, rfl, rfl, rfl⟩
  | some m =>
    cases s.timeout with
    | none => exact ⟨rfl, rfl, rfl, rfl, rfl, rfl⟩
    | some t =>
      dsimp only
      split
      · exact ⟨rfl, rfl, rfl, rfl, rfl, rfl⟩
      · exact ⟨rfl, rfl, rfl, rfl, rfl, rfl⟩

theorem shrinkTimeout_timeout (mw : Option Int) (start now : Nat)
    (s : PollSt) (mm t : Int) (hmw : mw = some mm)
    (htb : s.timeout = some t) (ht : t ≠ 0)
    (hover : (now : Int) + t > (start : Int) + mm) :
    (shrinkTimeout mw start now s).timeout
      = some ((start : Int) + mm - (now : Int)) := by
  subst hmw
  unfold shrinkTimeout
  rw [htb]
  dsimp only
  rw [if_pos ⟨ht, hover⟩]

theorem urlStep_shape (env : PollEnv) (mw : Option Int) (start : Nat)
    (ucb : Bool) (n : Nat) (url : String) (s : PollSt) :
    ((urlStep env mw start ucb n url s).1 = .brk
      ∧ (urlStep env mw start ucb n url s).2.trace = s.trace
      ∧ (urlStep env mw start ucb n url s).2.statusMsgs = s.statusMsgs
      ∧ (urlStep env mw start ucb n url s).2.excCalls = s.excCalls
      ∧ (urlStep env mw start ucb n url s).2.sleeps = s.sleeps
      ∧ s.clock ≤ (urlStep env mw start ucb n url s).2.clock
      ∧ n ≠ 0)
    ∨ (∃ e m,
        (urlStep env mw start ucb n url s).2.trace = s.trace ++ [e]
        ∧ e.url = url ∧ e.roundIdx = n
        ∧ e.reason = attemptEval e.outcome
        ∧ (∃ k, e.outcome = env.fetch k)
        ∧ (∀ mm t, e.roundIdx ≠ 0 → mw = some mm → e.tmoBefore = some t →
             t ≠ 0 → ((e.now : Int) + t > (start : Int) + mm) →
             e.effTimeout = some ((start : Int) + mm - (e.now : Int)))
        ∧ (urlStep env mw start ucb n url s).2.sleeps = s.sleeps
        ∧ s.clock ≤ (urlStep env mw start ucb n url s).2.clock
        ∧ (((urlStep env mw start ucb n url s).1 = .success url
             ∧ e.reason = none
             ∧ (urlStep env mw start ucb n url s).2.statusMsgs = s.statusMsgs
             ∧ (urlStep env mw start ucb n url s).2.excCalls = s.excCalls)
          ∨ ((urlStep env mw start ucb n url s).1 = .cont
             ∧ e.reason.isSome = true
             ∧ (urlStep env mw start ucb n url s).2.statusMsgs
                 = s.statusMsgs ++ [m]
             ∧ (ucb = true →
                  ∃ pe, (urlStep env mw start ucb n url s).2.excCalls
                     = s.excCalls ++ [(m, pe)])
             ∧ (ucb = false →
                  (urlStep env mw start ucb n url s).2.excCalls
                     = s.excCalls)))) := by
  unfold urlStep
  dsimp only
  by_cases hn : n = 0
  · rw [if_pos hn]
    obtain ⟨m, htr, hsl, hclk, hopts⟩ :=
      attemptStep_shape env mw ucb n url (readTime env s).1
        ((readTime env s).2.timeout) start (readTime env s).2
    have hcl0 : s.clock ≤ (readTime env s).2.clock := by
      dsimp [readTime]; omega
    refine Or.inr ⟨stepEntry env n url (readTime env s).1
        ((readTime env s).2.timeout) (readTime env s).2, m,
      htr, rfl, rfl, rfl, ⟨_, rfl⟩, ?_, hsl, le_trans hcl0 hclk, hopts⟩
    intro mm t h0
    exact absurd hn h0
  · rw [if_neg hn]
    by_cases ht2 : (timeup mw start env (readTime env s).2).1 = true
    · rw [if_pos ht2]
      obtain ⟨htu1, htu2, htu3, htu4, htu5, htu6, htu7⟩ :=
        timeup_state mw start env (readTime env s).2
      have hcl0 : s.clock ≤ (readTime env s).2.clock := by
        dsimp [readTime]; omega
      exact Or.inl ⟨rfl, htu1, htu2, htu3, htu4, le_trans hcl0 htu7, hn⟩
    · rw [if_neg ht2]
      obtain ⟨htu1, htu2, htu3, htu4, htu5, htu6, htu7⟩ :=
        timeup_state mw start env (readTime env s).2
      obtain ⟨hsh1, hsh2, hsh3, hsh4, hsh5, hsh6⟩ :=
        shrinkTimeout_state mw start (readTime env s).1
          (timeup mw start env (readTime env s).2).2
      have hcl0 : s.clock ≤ (readTime env s).2.clock := by
        dsimp [readTime]; omega
      obtain ⟨m, htr, hsl, hclk, hopts⟩ :=
        attemptStep_shape env mw ucb n url (readTime env s).1
          ((timeup mw start env (readTime env s).2).2.timeout) start
          (shrinkTimeout mw start (readTime env s).1
            (timeup mw start env (readTime env s).2).2)
      refine Or.inr ⟨stepEntry env n url (readTime env s).1
          ((timeup mw start env (readTime env s).2).2.timeout)
          (shrinkTimeout mw start (readTime env s).1
            (timeup mw start env (readTime env s).2).2), m,
        ?_, rfl, rfl, rfl, ⟨_, rfl⟩, ?_, ?_, ?_, ?_⟩
      · rw [htr, hsh1, htu1]; rfl
      · intro mm t h0 hmw htb2 ht hover
        exact shrinkTimeout_timeout mw start (readTime env s).1
          (timeup mw start env (readTime env s).2).2 mm t hmw htb2 ht hover
      · rw [hsl, hsh4, htu4]; rfl
      · have h5' : (shrinkTimeout mw start (readTime env s).1
            (timeup mw start env (readTime env s).2).2).clock
              = (timeup mw start env (readTime env s).2).2.clock := hsh5
        omega
      · rcases hopts with ⟨ha, hb, hc, hd⟩ | ⟨ha, hb, hc, hd, he⟩
        · exact Or.inl ⟨ha, hb, by rw [hc, hsh2, htu2]; rfl,
            by rw [hd, hsh3, htu3]; rfl⟩
        · refine Or.inr ⟨ha, hb, by rw [hc, hsh2, htu2]; rfl, ?_, ?_⟩
          · intro hu
            obtain ⟨pe, hpe⟩ := hd hu
            exact ⟨pe, by rw [hpe, hsh3, htu3]; rfl⟩
          · intro hu
            rw [he hu, hsh3, htu3]; rfl

theorem runRound_shape (env : PollEnv) (mw : Option Int) (start : Nat)
    (ucb : Bool) (n : Nat) :
    ∀ urls s, ∃ recs rest,
      (runRound env mw start ucb n urls s).2.trace = s.trace ++ recs
      ∧ urls = recs.map (fun e => e.url) ++ rest
      ∧ (n = 0 → (runRound env mw start ucb n urls s).1 = none → rest = [])
      ∧ (∀ e ∈ recs, e.roundIdx = n ∧ e.reason = attemptEval e.outcome
           ∧ (∃ k, e.outcome = env.fetch k)
           ∧ (∀ mm t, e.roundIdx ≠ 0 → mw = some mm → e.tmoBefore = some t →
                t ≠ 0 → ((e.now : Int) + t > (start : Int) + mm) →
                e.effTimeout = some ((start : Int) + mm - (e.now : Int))))
      ∧ (runRound env mw start ucb n urls s).2.sleeps = s.sleeps
      ∧ s.clock ≤ (runRound env mw start ucb n urls s).2.clock
      ∧ ((∃ u, (runRound env mw start ucb n urls s).1 = some u ∧ u ∈ urls
            ∧ ∃ pre e2, recs = pre ++ [e2]
                ∧ (∀ e ∈ pre, e.reason.isSome = true)
                ∧ e2.reason = none ∧ e2.url = u)
        ∨ ((runRound env mw start ucb n urls s).1 = none
            ∧ (∀ e ∈ recs, e.reason.isSome = true))) := by
  intro urls
  induction urls with
  | nil =>
    intro s
    refine ⟨[], [], by simp [runRound], rfl, fun _ _ => rfl, by simp, rfl,
      le_refl _, Or.inr ⟨rfl, by simp⟩⟩
  | cons url rest ih =>
    intro s
    have hshape := urlStep_shape env mw start ucb n url s
    cases hstep : urlStep env mw start ucb n url s with
    | mk sr s1 =>
      rw [hstep] at hshape
      simp only [runRound, hstep]
      cases sr with
      | brk =>
        dsimp only
        rcases hshape with ⟨h1, h2, h3, h4, h5, h6, h7⟩ |
          ⟨e, m, he1, he2, he3, he4, hek, he5, he6, he7,
            ⟨hsuc, _⟩ | ⟨hcont, _⟩⟩
        · refine ⟨[], url :: rest, by simpa using h2, rfl,
            fun h0 _ => absurd h0 h7, by simp, h5, h6,
            Or.inr ⟨rfl, by simp⟩⟩
        · simp at hsuc
        · simp at hcont
      | success u =>
        dsimp only
        rcases hshape with ⟨h1, h2, h3, h4, h5, h6, h7⟩ |
          ⟨e, m, he1, he2, he3, he4, hek, he5, he6, he7, hopts⟩
        · simp at h1
        · rcases hopts with ⟨hsuc, hrsn, hmsg, hexc⟩ | ⟨hcont, _⟩
          · have huu : u = url := by
              simpa [StepRes.success.injEq] using hsuc
            refine ⟨[e], rest, by simpa using he1, by simp [he2],
              fun _ hno => absurd hno (by simp), ?_,
              he6, he7, Or.inl ⟨u, rfl, by simp [huu], [], e, by simp,
                by simp, hrsn, by rw [he2, huu]⟩⟩
            intro e' he'
            rcases List.mem_singleton.mp he' with rfl
            exact ⟨he3, he4, hek, he5⟩
          · simp at hcont
      | cont =>
        dsimp only
        rcases hshape with ⟨h1, h2, h3, h4, h5, h6, h7⟩ |
          ⟨e, m, he1, he2, he3, he4, hek, he5, he6, he7, hopts⟩
        · simp at h1
        · rcases hopts with ⟨hsuc, _⟩ | ⟨hcont, hrsn, hmsg, hexc1, hexc2⟩
          · simp at hsuc
          · obtain ⟨recs', rest', ih1, ih2, ihz, ih3, ih4, ih5, ih6⟩ := ih s1
            refine ⟨e :: recs', rest', ?_, ?_, ihz, ?_, ?_, ?_, ?_⟩
            · rw [ih1, he1]
              simp
            · rw [ih2]
              simp [he2]
            · intro e' he'
              rcases List.mem_cons.mp he' with rfl | hmem
              · exact ⟨he3, he4, hek, he5⟩
              · exact ih3 e' hmem
            · rw [ih4, he6]
            · exact le_trans he7 ih5
            · rcases ih6 with ⟨u, hu, humem, pre, e2, hdec, hpre, hr2, hu2⟩ |
                ⟨hnone, hall⟩
              · refine Or.inl ⟨u, hu, List.mem_cons_of_mem url humem,
                  e :: pre, e2, by rw [hdec]; rfl, ?_, hr2, hu2⟩
                intro e' he'
                rcases List.mem_cons.mp he' with rfl | hmem
                · exact hrsn
                · exact hpre e' hmem
              · refine Or.inr ⟨hnone, ?_⟩
                intro e' he'
                rcases List.mem_cons.mp he' with rfl | hmem
                · exact hrsn
                · exact hall e' hmem

theorem urlStep_cbInv (env : PollEnv) (mw : Option Int) (start : Nat)
    (ucb : Bool) (n : Nat) (url : String) (s : PollSt) (h : cbInv ucb s) :
    cbInv ucb (urlStep env mw start ucb n url s).2 := by
  rcases urlStep_shape env mw start ucb n url s with
    ⟨_, h2, h3, h4, _, _, _⟩ |
    ⟨e, m, he1, _, _, _, _, _, _, _,
      ⟨_, hrsn, hmsg, hexc⟩ | ⟨_, hrsn, hmsg, hexc1, hexc2⟩⟩
  · exact ⟨by rw [h3, h2]; exact h.1,
      fun hu => by rw [h4, h3]; exact h.2.1 hu,
      fun hu => by rw [h4]; exact h.2.2 hu⟩
  · refine ⟨?_, ?_, ?_⟩
    · rw [hmsg, he1, List.filter_append]
      have : [e].filter (fun e => e.reason.isSome) = [] := by
        simp [List.filter, hrsn]
      rw [this, List.append_nil]
      exact h.1
    · intro hu
      rw [hexc, hmsg]
      exact h.2.1 hu
    · intro hu
      rw [hexc]
      exact h.2.2 hu
  · refine ⟨?_, ?_, ?_⟩
    · rw [hmsg, he1, List.filter_append]
      have : [e].filter (fun e => e.reason.isSome) = [e] := by
        simp [List.filter, hrsn]
      rw [this]
      simp [h.1]
    · intro hu
      obtain ⟨pe, hpe⟩ := hexc1 hu
      rw [hpe, hmsg, List.map_append]
      simp [h.2.1 hu]
    · intro hu
      rw [hexc2 hu]
      exact h.2.2 hu

theorem runRound_cbInv (env : PollEnv) (mw : Option Int) (start : Nat)
    (ucb : Bool) (n : Nat) :
    ∀ urls s, cbInv ucb s →
      cbInv ucb (runRound env mw start ucb n urls s).2 := by
  intro urls
  induction urls with
  | nil => intro s h; exact h
  | cons url rest ih =>
    intro s h
    have h1 := urlStep_cbInv env mw start ucb n url s h
    cases hstep : urlStep env mw start ucb n url s with
    | mk sr s1 =>
      rw [hstep] at h1
      simp only [runRound, hstep]
      cases sr with
      | brk => exact h1
      | success u => exact h1
      | cont => exact ih s1 h1

theorem cbInv_congr (ucb : Bool) (s s' : PollSt) (h1 : s'.trace = s.trace)
    (h2 : s'.statusMsgs = s.statusMsgs) (h3 : s'.excCalls = s.excCalls)
    (h : cbInv ucb s) : cbInv ucb s' :=
  ⟨by rw [h2, h1]; exact h.1, fun hu => by rw [h3, h2]; exact h.2.1 hu,
   fun hu => by rw [h3]; exact h.2.2 hu⟩

theorem pollLoop_entries (env : PollEnv) (mw : Option Int) (ucb : Bool)
    (urls : List String) (start : Nat) :
    ∀ fuel n s,
      (∀ e ∈ s.trace, e.reason = attemptEval e.outcome
        ∧ (∃ k, e.outcome = env.fetch k)
        ∧ (∀ mm t, e.roundIdx ≠ 0 → mw = some mm → e.tmoBefore = some t →
             t ≠ 0 → ((e.now : Int) + t > (start : Int) + mm) →
             e.effTimeout = some ((start : Int) + mm - (e.now : Int)))) →
      ∀ e ∈ (pollLoop env mw ucb urls start n fuel s).2.trace,
        e.reason = attemptEval e.outcome
        ∧ (∃ k, e.outcome = env.fetch k)
        ∧ (∀ mm t, e.roundIdx ≠ 0 → mw = some mm → e.tmoBefore = some t →
             t ≠ 0 → ((e.now : Int) + t > (start : Int) + mm) →
             e.effTimeout = some ((start : Int) + mm - (e.now : Int))) := by
  intro fuel
  induction fuel with
  | zero => intro n s h; exact h
  | succ f ih =>
    intro n s h
    obtain ⟨recs, rest, hr1, hr2, hrz, hr3, hr4, hr5, hr6⟩ :=
      runRound_shape env mw start ucb n urls s
    cases hrun : runRound env mw start ucb n urls s with
    | mk ores s1 =>
      rw [hrun] at hr1
      have hr1' : s1.trace = s.trace ++ recs := hr1
      have hall : ∀ e ∈ s1.trace, e.reason = attemptEval e.outcome
          ∧ (∃ k, e.outcome = env.fetch k)
          ∧ (∀ mm t, e.roundIdx ≠ 0 → mw = some mm → e.tmoBefore = some t →
               t ≠ 0 → ((e.now : Int) + t > (start : Int) + mm) →
               e.effTimeout = some ((start : Int) + mm - (e.now : Int))) := by
        intro e he
        rw [hr1'] at he
        rcases List.mem_append.mp he with hm | hm
        · exact h e hm
        · exact ⟨(hr3 e hm).2.1, (hr3 e hm).2.2.1, (hr3 e hm).2.2.2⟩
      simp only [pollLoop, hrun]
      cases ores with
      | some u => exact hall
      | none =>
        dsimp only
        by_cases htu : (timeup mw start env s1).1 = true
        · rw [if_pos htu]
          intro e he
          have he' : e ∈ (timeup mw start env s1).2.trace := he
          rw [(timeup_state mw start env s1).1] at he'
          exact hall e he'
        · rw [if_neg htu]
          apply ih (n + 1)
          intro e he
          have he' : e ∈ (timeup mw start env s1).2.trace := he
          rw [(timeup_state mw start env s1).1] at he'
          exact hall e he'

theorem pollLoop_cbInv (env : PollEnv) (mw : Option Int) (ucb : Bool)
    (urls : List String) (start : Nat) :
    ∀ fuel n s, cbInv ucb s →
      cbInv ucb (pollLoop env mw ucb urls start n fuel s).2 := by
  intro fuel
  induction fuel with
  | zero => intro n s h; exact h
  | succ f ih =>
    intro n s h
    have h1 := runRound_cbInv env mw start ucb n urls s h
    cases hrun : runRound env mw start ucb n urls s with
    | mk ores s1 =>
      rw [hrun] at h1
      have h1' : cbInv ucb s1 := h1
      simp only [pollLoop, hrun]
      cases ores with
      | some u => exact h1'
      | none =>
        dsimp only
        obtain ⟨t1, t2, t3, _⟩ := timeup_state mw start env s1
        by_cases htu : (timeup mw start env s1).1 = true
        · rw [if_pos htu]
          exact cbInv_congr ucb s1 _ t1 t2 t3 h1'
        · rw [if_neg htu]
          apply ih (n + 1)
          exact cbInv_congr ucb s1 _ t1 t2 t3 h1'

theorem pollLoop_sleeps (env : PollEnv) (mw : Option Int) (ucb : Bool)
    (urls : List String) (start : Nat) :
    ∀ fuel n s, ∃ k,
      (pollLoop env mw ucb urls start n fuel s).2.sleeps
        = s.sleeps ++ (List.range k).map (fun i => (n + i) / 5 + 1) := by
  intro fuel
  induction fuel with
  | zero => intro n s; exact ⟨0, by simp [pollLoop]⟩
  | succ f ih =>
    intro n s
    obtain ⟨recs, rest, hr1, hr2, hrz, hr3, hr4, hr5, hr6⟩ :=
      runRound_shape env mw start ucb n urls s
    cases hrun : runRound env mw start ucb n urls s with
    | mk ores s1 =>
      rw [hrun] at hr4
      have hr4' : s1.sleeps = s.sleeps := hr4
      simp only [pollLoop, hrun]
      cases ores with
      | some u => exact ⟨0, by simpa using hr4'⟩
      | none =>
        dsimp only
        have hts : (timeup mw start env s1).2.sleeps = s1.sleeps :=
          (timeup_state mw start env s1).2.2.2.1
        by_cases htu : (timeup mw start env s1).1 = true
        · rw [if_pos htu]
          exact ⟨0, by simp [hts, hr4']⟩
        · rw [if_neg htu]
          obtain ⟨k, hk⟩ := ih (n + 1)
            { (timeup mw start env s1).2 with
                clock := (timeup mw start env s1).2.clock + (n / 5 + 1),
                sleeps := (timeup mw start env s1).2.sleeps ++ [n / 5 + 1] }
          refine ⟨k + 1, ?_⟩
          rw [hk]
          have hmap : (List.range (k + 1)).map (fun i => (n + i) / 5 + 1)
              = (n / 5 + 1) ::
                (List.range k).map (fun i => (n + 1 + i) / 5 + 1) := by
            rw [List.range_succ_eq_map, List.map_cons, List.map_map]
            refine congrArg₂ _ (by simp) ?_
            refine List.map_congr_left ?_
            intro i _
            have harith : n + Nat.succ i = n + 1 + i := by omega
            simp [Function.comp, harith]
          rw [hmap]
          dsimp only
          rw [hts, hr4']
          simp

theorem pollLoop_success (env : PollEnv) (mw : Option Int) (ucb : Bool)
    (urls : List String) (start : Nat) :
    ∀ fuel n s, (∀ e ∈ s.trace, e.reason.isSome = true) →
      ((∃ u, (pollLoop env mw ucb urls start n fuel s).1
              = PollResult.success u
          ∧ u ∈ urls
          ∧ ∃ pre e2,
              (pollLoop env mw ucb urls start n fuel s).2.trace = pre ++ [e2]
              ∧ (∀ e ∈ pre, e.reason.isSome = true)
              ∧ e2.reason = none ∧ e2.url = u)
      ∨ (((pollLoop env mw ucb urls start n fuel s).1 = PollResult.failure
           ∨ (pollLoop env mw ucb urls start n fuel s).1 = PollResult.fuelOut)
          ∧ ∀ e ∈ (pollLoop env mw ucb urls start n fuel s).2.trace,
              e.reason.isSome = true)) := by
  intro fuel
  induction fuel with
  | zero => intro n s h; exact Or.inr ⟨Or.inr rfl, h⟩
  | succ f ih =>
    intro n s h
    obtain ⟨recs, rest, hr1, hr2, hrz, hr3, hr4, hr5, hr6⟩ :=
      runRound_shape env mw start ucb n urls s
    cases hrun : runRound env mw start ucb n urls s with
    | mk ores s1 =>
      rw [hrun] at hr1 hr6
      have hr1' : s1.trace = s.trace ++ recs := hr1
      simp only [pollLoop, hrun]
      cases ores with
      | some u =>
        rcases hr6 with ⟨u', hu', humem, pre', e2, hdec, hpre, hrn, hu2⟩ |
          ⟨hnone, _⟩
        · have huu : u' = u := by
            have h0 := hu'
            simp at h0
            exact h0.symm
          subst huu
          refine Or.inl ⟨u', rfl, humem, s.trace ++ pre', e2, ?_, ?_, hrn, hu2⟩
          · rw [hr1', hdec]
            simp
          · intro e he
            rcases List.mem_append.mp he with hm | hm
            · exact h e hm
            · exact hpre e hm
        · simp at hnone
      | none =>
        have hall : ∀ e ∈ s1.trace, e.reason.isSome = true := by
          intro e he
          rw [hr1'] at he
          rcases List.mem_append.mp he with hm | hm
          · exact h e hm
          · rcases hr6 with ⟨u', hu', _⟩ | ⟨_, hrecs⟩
            · simp at hu'
            · exact hrecs e hm
        dsimp only
        by_cases htu : (timeup mw start env s1).1 = true
        · rw [if_pos htu]
          refine Or.inr ⟨Or.inl rfl, ?_⟩
          intro e he
          have he' : e ∈ (timeup mw start env s1).2.trace := he
          rw [(timeup_state mw start env s1).1] at he'
          exact hall e he'
        · rw [if_neg htu]
          apply ih (n + 1)
          intro e he
          have he' : e ∈ (timeup mw start env s1).2.trace := he
          rw [(timeup_state mw start env s1).1] at he'
          exact hall e he'

theorem timeup_easy (mw : Option Int) (start : Nat) (env : PollEnv)
    (s : PollSt) (hmw : mw = none ∨ ∃ m, mw = some m ∧ m ≤ 0) :
    timeup mw start env s = (true, s) := by
  rcases hmw with h | ⟨m, h, hm⟩
  · subst h; rfl
  · subst h
    unfold timeup
    dsimp only
    rw [if_pos hm]

theorem timeup_pos (m : Int) (hm : ¬ m ≤ 0) (start : Nat) (env : PollEnv)
    (s : PollSt) :
    timeup (some m) start env s
      = (decide ((s.clock : Int) - (start : Int) > m),
         { s with clock := s.clock + env.incs s.readCnt,
                  readCnt := s.readCnt + 1 }) := by
  unfold timeup
  dsimp only
  rw [if_neg hm]
  rfl

theorem pollLoop_term_easy (env : PollEnv) (mw : Option Int) (ucb : Bool)
    (urls : List String) (start : Nat)
    (hmw : mw = none ∨ ∃ m, mw = some m ∧ m ≤ 0) :
    ∀ fuel n s, 1 ≤ fuel →
      (pollLoop env mw ucb urls start n fuel s).1 ≠ PollResult.fuelOut := by
  intro fuel
  cases fuel with
  | zero => intro n s h; omega
  | succ f =>
    intro n s _
    cases hrun : runRound env mw start ucb n urls s with
    | mk ores s1 =>
      simp only [pollLoop, hrun]
      cases ores with
      | some u => simp
      | none =>
        dsimp only
        rw [timeup_easy mw start env s1 hmw]
        simp

theorem pollLoop_term_pos (env : PollEnv) (ucb : Bool)
    (urls : List String) (start : Nat) (m : Int) (hm : 0 < m) :
    ∀ (fuel n : Nat) (s : PollSt), 1 ≤ fuel →
      (start : Int) + m + 2 ≤ (s.clock : Int) + (fuel : Int) →
      (pollLoop env (some m) ucb urls start n fuel s).1
          ≠ PollResult.fuelOut := by
  intro fuel
  induction fuel with
  | zero => intro n s h; omega
  | succ f ih =>
    intro n s _ hbound
    obtain ⟨recs, rest, hr1, hr2, hrz, hr3, hr4, hr5, hr6⟩ :=
      runRound_shape env (some m) start ucb n urls s
    cases hrun : runRound env (some m) start ucb n urls s with
    | mk ores s1 =>
      rw [hrun] at hr5
      have hr5' : s.clock ≤ s1.clock := hr5
      simp only [pollLoop, hrun]
      cases ores with
      | some u => simp
      | none =>
        dsimp only
        have hmle : ¬ m ≤ 0 := by omega
        rw [timeup_pos m hmle start env s1]
        by_cases htu : ((s1.clock : Int) - (start : Int) > m)
        · rw [if_pos (by simpa using htu)]
          simp
        · rw [if_neg (by simpa using htu)]
          apply ih (n + 1)
          · omega
          · dsimp only
            push_cast
            omega

theorem wait_for_url_eq (env : PollEnv) (urls : List String)
    (mw tmo : Option Int) (ucb : Bool) (fuel : Nat) (clock0 : Nat) :
    wait_for_url env urls mw tmo ucb fuel clock0
      = pollLoop env mw ucb urls clock0 0 fuel
          { clock := clock0 + env.incs 0, readCnt := 1, fetchCnt := 0,
            timeout := tmo, trace := [], statusMsgs := [], excCalls := [],
            sleeps := [] } := rfl

theorem pollLoop_empty (env : PollEnv) (mw : Option Int) (ucb : Bool)
    (start : Nat) :
    ∀ fuel n s,
      (pollLoop env mw ucb [] start n fuel s).2.trace = s.trace
      ∧ (pollLoop env mw ucb [] start n fuel s).2.statusMsgs = s.statusMsgs
      ∧ (pollLoop env mw ucb [] start n fuel s).2.excCalls = s.excCalls
      ∧ (pollLoop env mw ucb [] start n fuel s).2.fetchCnt = s.fetchCnt := by
  intro fuel
  induction fuel with
  | zero => intro n s; exact ⟨rfl, rfl, rfl, rfl⟩
  | succ f ih =>
    intro n s
    simp only [pollLoop, runRound]
    obtain ⟨t1, t2, t3, t4, t5, t6, t7⟩ := timeup_state mw start env s
    by_cases htu : (timeup mw start env s).1 = true
    · rw [if_pos htu]
      exact ⟨t1, t2, t3, t6⟩
    · rw [if_neg htu]
      obtain ⟨i1, i2, i3, i4⟩ := ih (n + 1)
        { (timeup mw start env s).2 with
            clock := (timeup mw start env s).2.clock + (n / 5 + 1),
            sleeps := (timeup mw start env s).2.sleeps ++ [n / 5 + 1] }
      exact ⟨i1.trans t1, i2.trans t2, i3.trans t3, i4.trans t6⟩

/-- C2: in wait_for_url, on every round after round 0, when a truthy
timeout is set and issuing the request at that timeout would extend past
the global deadline clock0 + max_wait, the effective timeout used for
that request is exactly deadline minus the fresh clock reading taken for
that iteration, never the prior value of the timeout variable. -/
theorem wait_for_url_timeout_shrink (env : PollEnv) (urls : List String)
    (tmo : Option Int) (ucb : Bool) (fuel : Nat) (clock0 : Nat)
    (m t : Int) (e : AttemptRecord)
    (he : e ∈ (wait_for_url env urls (some m) tmo ucb fuel clock0).2.trace)
    (hround : e.roundIdx ≠ 0) (htb : e.tmoBefore = some t) (ht : t ≠ 0)
    (hover : (e.now : Int) + t > (clock0 : Int) + m) :
    e.effTimeout = some ((clock0 : Int) + m - (e.now : Int)) := by
  rw [wait_for_url_eq] at he
  have hP := pollLoop_entries env (some m) ucb urls clock0 fuel 0
      { clock := clock0 + env.incs 0, readCnt := 1, fetchCnt := 0,
        timeout := tmo, trace := [], statusMsgs := [], excCalls := [],
        sleeps := [] } (by intro e' he'; simp at he')
  exact (hP e he).2.2 m t hround rfl htb ht hover

theorem wait_for_url_timeout_shrink_witness :
    ((wait_for_url envA ["u"] (some 10) (some 100) false 12 0).2.trace.getD 1
        default).effTimeout = some (9 : Int) := by
  have h := wait_for_url_timeout_shrink envA ["u"] (some 100) false 12 0
      10 100
      ((wait_for_url envA ["u"] (some 10) (some 100) false 12 0).2.trace.getD
        1 default)
      (by decide) (by decide) (by decide) (by decide) (by decide)
  rw [h]
  decide

/-- C6: the inter-round sleep recorded after completing round n equals
n / 5 + 1, so the sequence of sleeps is monotonically non-decreasing in
the round index. -/
theorem wait_for_url_sleep_backoff (env : PollEnv) (urls : List String)
    (mw tmo : Option Int) (ucb : Bool) (fuel : Nat) (clock0 : Nat) :
    (∀ i (h : i <
          (wait_for_url env urls mw tmo ucb fuel clock0).2.sleeps.length),
        (wait_for_url env urls mw tmo ucb fuel clock0).2.sleeps.get ⟨i, h⟩
          = i / 5 + 1)
    ∧ (∀ i j (hi : i <
          (wait_for_url env urls mw tmo ucb fuel clock0).2.sleeps.length)
        (hj : j <
          (wait_for_url env urls mw tmo ucb fuel clock0).2.sleeps.length),
        i ≤ j →
        (wait_for_url env urls mw tmo ucb fuel clock0).2.sleeps.get ⟨i, hi⟩
          ≤ (wait_for_url env urls mw tmo ucb fuel clock0).2.sleeps.get
              ⟨j, hj⟩) := by
  obtain ⟨k, hk⟩ := pollLoop_sleeps env mw ucb urls clock0 fuel 0
    { clock := clock0 + env.incs 0, readCnt := 1, fetchCnt := 0,
      timeout := tmo, trace := [], statusMsgs := [], excCalls := [],
      sleeps := [] }
  have hk' : (wait_for_url env urls mw tmo ucb fuel clock0).2.sleeps
      = (List.range k).map (fun i => i / 5 + 1) := by
    rw [wait_for_url_eq, hk]
    simp
  have hget : ∀ i (h : i <
      (wait_for_url env urls mw tmo ucb fuel clock0).2.sleeps.length),
      (wait_for_url env urls mw tmo ucb fuel clock0).2.sleeps.get ⟨i, h⟩
        = i / 5 + 1 := by
    intro i h
    have h2 : i < ((List.range k).map (fun i => i / 5 + 1)).length := by
      rw [hk'] at h
      exact h
    rw [List.get_eq_getElem]
    have := List.getElem_of_eq hk' h
    rw [this, List.getElem_map, List.getElem_range]
  refine ⟨hget, ?_⟩
  intro i j hi hj hij
  rw [hget i hi, hget j hj]
  have := Nat.div_le_div_right (c := 5) hij
  omega

theorem wait_for_url_sleep_backoff_witness :
    (wait_for_url envA [] (some 3) none false 5 0).2.sleeps.get
        ⟨3, by decide⟩ = 1
    ∧ (wait_for_url envA [] (some 3) none false 5 0).2.sleeps.get
        ⟨0, by decide⟩
      ≤ (wait_for_url envA [] (some 3) none false 5 0).2.sleeps.get
        ⟨3, by decide⟩ := by
  constructor
  · have h := (wait_for_url_sleep_backoff envA [] (some 3) none false 5 0).1
      3 (by decide)
    rw [h]
  · exact (wait_for_url_sleep_backoff envA [] (some 3) none false 5 0).2
      0 3 (by decide) (by decide) (by decide)

/-- C5: with fuel covering the whole budget, wait_for_url ends in
failure or in success of one of the candidate urls — never in a raised
exception and never out of rounds — and every failed attempt is
converted into exactly one status callback message, with the exception
callback receiving exactly the same messages when enabled and nothing
otherwise. -/
theorem wait_for_url_absorbs (env : PollEnv) (urls : List String)
    (mw tmo : Option Int) (ucb : Bool) (clock0 : Nat) :
    ((wait_for_url env urls mw tmo ucb (sufficientFuel mw) clock0).1
        = PollResult.failure
      ∨ ∃ u, (wait_for_url env urls mw tmo ucb (sufficientFuel mw)
              clock0).1 = PollResult.success u ∧ u ∈ urls)
    ∧ (wait_for_url env urls mw tmo ucb (sufficientFuel mw)
        clock0).2.statusMsgs.length
        = ((wait_for_url env urls mw tmo ucb (sufficientFuel mw)
            clock0).2.trace.filter (fun e => e.reason.isSome)).length
    ∧ (ucb = true →
        (wait_for_url env urls mw tmo ucb (sufficientFuel mw)
            clock0).2.excCalls.map Prod.fst
          = (wait_for_url env urls mw tmo ucb (sufficientFuel mw)
              clock0).2.statusMsgs)
    ∧ (ucb = false →
        (wait_for_url env urls mw tmo ucb (sufficientFuel mw)
            clock0).2.excCalls = []) := by
  rw [wait_for_url_eq]
  have hinv := pollLoop_cbInv env mw ucb urls clock0 (sufficientFuel mw) 0
    { clock := clock0 + env.incs 0, readCnt := 1, fetchCnt := 0,
      timeout := tmo, trace := [], statusMsgs := [], excCalls := [],
      sleeps := [] } ⟨rfl, fun _ => rfl, fun _ => rfl⟩
  have hsuc := pollLoop_success env mw ucb urls clock0 (sufficientFuel mw) 0
    { clock := clock0 + env.incs 0, readCnt := 1, fetchCnt := 0,
      timeout := tmo, trace := [], statusMsgs := [], excCalls := [],
      sleeps := [] } (by intro e he; simp at he)
  have hterm : (pollLoop env mw ucb urls clock0 0 (sufficientFuel mw)
      { clock := clock0 + env.incs 0, readCnt := 1, fetchCnt := 0,
        timeout := tmo, trace := [], statusMsgs := [], excCalls := [],
        sleeps := [] }).1 ≠ PollResult.fuelOut := by
    cases mw with
    | none =>
      exact pollLoop_term_easy env none ucb urls clock0 (Or.inl rfl) _ 0 _
        (by simp [sufficientFuel])
    | some m =>
      by_cases hm : m ≤ 0
      · exact pollLoop_term_easy env (some m) ucb urls clock0
          (Or.inr ⟨m, rfl, hm⟩) _ 0 _ (by simp [sufficientFuel])
      · refine pollLoop_term_pos env ucb urls clock0 m (by omega) _ 0 _
          (by simp [sufficientFuel]) ?_
        show (clock0 : Int) + m + 2
            ≤ ((clock0 + env.incs 0 : Nat) : Int) + ((m.toNat + 2 : Nat) : Int)
        push_cast
        omega
  refine ⟨?_, hinv.1, hinv.2.1, hinv.2.2⟩
  rcases hsuc with ⟨u, hu, humem, _⟩ | ⟨hfo, _⟩
  · exact Or.inr ⟨u, hu, humem⟩
  · rcases hfo with hf | hf
    · exact Or.inl hf
    · exact absurd hf hterm

theorem wait_for_url_absorbs_witness :
    (wait_for_url envA ["u"] (some 2) none true (sufficientFuel (some 2))
        0).2.excCalls.map Prod.fst
      = (wait_for_url envA ["u"] (some 2) none true (sufficientFuel (some 2))
          0).2.statusMsgs :=
  (wait_for_url_absorbs envA ["u"] (some 2) none true 0).2.2.1 rfl

/-- C3: every attempt of wait_for_url with an empty body is a soft
failure with reason "empty response [code]", every attempt with a
non-empty body and a non-success status is a soft failure with reason
"bad status code [code]", and an attempt with a non-empty body and a
success status makes wait_for_url return its url immediately: it is the
last attempt of the run and only failed attempts produce status
messages. -/
theorem wait_for_url_attempt_eval (env : PollEnv) (urls : List String)
    (mw tmo : Option Int) (ucb : Bool) (fuel : Nat) (clock0 : Nat) :
    (∀ e ∈ (wait_for_url env urls mw tmo ucb fuel clock0).2.trace, ∀ c,
        e.outcome = FetchOutcome.resp c [] →
        e.reason = some ("empty response [" ++ toString c ++ "]"))
    ∧ (∀ e ∈ (wait_for_url env urls mw tmo ucb fuel clock0).2.trace,
        ∀ c b, e.outcome = FetchOutcome.resp c b → b ≠ [] →
        okStatus c = false →
        e.reason = some ("bad status code [" ++ toString c ++ "]"))
    ∧ (∀ i (h : i <
          (wait_for_url env urls mw tmo ucb fuel clock0).2.trace.length),
        ((wait_for_url env urls mw tmo ucb fuel clock0).2.trace.get
            ⟨i, h⟩).reason = none →
        (wait_for_url env urls mw tmo ucb fuel clock0).1
            = PollResult.success
                (((wait_for_url env urls mw tmo ucb fuel clock0).2.trace.get
                    ⟨i, h⟩).url)
        ∧ i + 1
            = (wait_for_url env urls mw tmo ucb fuel clock0).2.trace.length)
    ∧ (wait_for_url env urls mw tmo ucb fuel clock0).2.statusMsgs.length
        = ((wait_for_url env urls mw tmo ucb fuel clock0).2.trace.filter
            (fun e => e.reason.isSome)).length := by
  rw [wait_for_url_eq]
  have hP := pollLoop_entries env mw ucb urls clock0 fuel 0
    { clock := clock0 + env.incs 0, readCnt := 1, fetchCnt := 0,
      timeout := tmo, trace := [], statusMsgs := [], excCalls := [],
      sleeps := [] } (by intro e' he'; simp at he')
  have hsuc := pollLoop_success env mw ucb urls clock0 fuel 0
    { clock := clock0 + env.incs 0, readCnt := 1, fetchCnt := 0,
      timeout := tmo, trace := [], statusMsgs := [], excCalls := [],
      sleeps := [] } (by intro e he; simp at he)
  have hinv := pollLoop_cbInv env mw ucb urls clock0 fuel 0
    { clock := clock0 + env.incs 0, readCnt := 1, fetchCnt := 0,
      timeout := tmo, trace := [], statusMsgs := [], excCalls := [],
      sleeps := [] } ⟨rfl, fun _ => rfl, fun _ => rfl⟩
  refine ⟨?_, ?_, ?_, hinv.1⟩
  · intro e he c hout
    have h1 := (hP e he).1
    rw [hout] at h1
    rw [h1]
    simp [attemptEval]
  · intro e he c b hout hb hok
    have h1 := (hP e he).1
    rw [hout] at h1
    rw [h1]
    simp [attemptEval, hb, hok]
  · intro i h hnone
    rcases hsuc with ⟨u, hu, humem, pre, e2, hdec, hpre, hrn, hu2⟩ |
      ⟨hfo, hall⟩
    · have hlen : (pollLoop env mw ucb urls clock0 0 fuel
          { clock := clock0 + env.incs 0, readCnt := 1, fetchCnt := 0,
            timeout := tmo, trace := [], statusMsgs := [], excCalls := [],
            sleeps := [] }).2.trace.length = pre.length + 1 := by
        rw [hdec]
        simp
      have hi2 : i < pre.length + 1 := by omega
      rcases Nat.lt_or_ge i pre.length with hlt | hge
      · exfalso
        have hget := List.getElem_of_eq hdec (by omega : i <
          (pollLoop env mw ucb urls clock0 0 fuel
            { clock := clock0 + env.incs 0, readCnt := 1, fetchCnt := 0,
              timeout := tmo, trace := [], statusMsgs := [], excCalls := [],
              sleeps := [] }).2.trace.length)
        rw [List.get_eq_getElem] at hnone
        rw [hget, List.getElem_append_left hlt] at hnone
        have := hpre _ (List.getElem_mem hlt)
        rw [hnone] at this
        simp at this
      · have hieq : i = pre.length := by omega
        have hget := List.getElem_of_eq hdec (by omega : i <
          (pollLoop env mw ucb urls clock0 0 fuel
            { clock := clock0 + env.incs 0, readCnt := 1, fetchCnt := 0,
              timeout := tmo, trace := [], statusMsgs := [], excCalls := [],
              sleeps := [] }).2.trace.length)
        have hwi : i < (pre ++ [e2]).length := by simp; omega
        have hgete : (pre ++ [e2])[i] = e2 :=
          List.getElem_concat_length pre e2 i hieq hwi
        constructor
        · rw [List.get_eq_getElem, hget, hgete, hu2, hu]
        · omega
    · exfalso
      have := hall _ (List.get_mem _ i h)
      rw [hnone] at this
      simp at this

theorem wait_for_url_attempt_eval_witness :
    ((wait_for_url envB ["a", "b"] (some 10) none false 12 0).2.trace.getD 0
        default).reason = some "empty response [200]"
    ∧ (wait_for_url envB ["a", "b"] (some 10) none false 12 0).1
        = PollResult.success "b" := by
  constructor
  · have h := (wait_for_url_attempt_eval envB ["a", "b"] (some 10) none false
        12 0).1
      ((wait_for_url envB ["a", "b"] (some 10) none false 12 0).2.trace.getD
        0 default) (by decide) 200 (by decide)
    rw [h]
    decide
  · have h := (wait_for_url_attempt_eval envB ["a", "b"] (some 10) none false
        12 0).2.2.1 1 (by decide) (by decide)
    rw [h.1]
    decide

/-- C7: when max_wait is None or non-positive, wait_for_url performs
exactly one round (round index 0) over a leading segment of the url
list without ever sleeping, and when no attempt succeeds it attempts
every url exactly once and returns the failure indicator. -/
theorem wait_for_url_single_round (env : PollEnv) (urls : List String)
    (mw tmo : Option Int) (ucb : Bool) (fuel : Nat) (clock0 : Nat)
    (hmw : mw = none ∨ ∃ m, mw = some m ∧ m ≤ 0) (hfuel : 1 ≤ fuel) :
    (wait_for_url env urls mw tmo ucb fuel clock0).2.sleeps = []
    ∧ (∀ e ∈ (wait_for_url env urls mw tmo ucb fuel clock0).2.trace,
        e.roundIdx = 0)
    ∧ (∃ rest, urls
        = (wait_for_url env urls mw tmo ucb fuel clock0).2.trace.map
            (fun e => e.url) ++ rest)
    ∧ ((∀ k, (attemptEval (env.fetch k)).isSome = true) →
        (wait_for_url env urls mw tmo ucb fuel clock0).1
            = PollResult.failure
        ∧ (wait_for_url env urls mw tmo ucb fuel clock0).2.trace.map
            (fun e => e.url) = urls) := by
  obtain ⟨f, rfl⟩ : ∃ f, fuel = f + 1 := ⟨fuel - 1, by omega⟩
  rw [wait_for_url_eq]
  obtain ⟨recs, rest, hr1, hr2, hrz, hr3, hr4, hr5, hr6⟩ :=
    runRound_shape env mw clock0 ucb 0 urls
      { clock := clock0 + env.incs 0, readCnt := 1, fetchCnt := 0,
        timeout := tmo, trace := [], statusMsgs := [], excCalls := [],
        sleeps := [] }
  cases hrun : runRound env mw clock0 ucb 0 urls
      { clock := clock0 + env.incs 0, readCnt := 1, fetchCnt := 0,
        timeout := tmo, trace := [], statusMsgs := [], excCalls := [],
        sleeps := [] } with
  | mk ores s1 =>
    rw [hrun] at hr1 hr4 hr6 hrz
    have hr1' : s1.trace = recs := by simpa using hr1
    have hr4' : s1.sleeps = [] := by simpa using hr4
    simp only [pollLoop, hrun]
    cases ores with
    | some u =>
      dsimp only
      refine ⟨hr4', ?_, ?_, ?_⟩
      · intro e he
        rw [hr1'] at he
        exact (hr3 e he).1
      · exact ⟨rest, by rw [hr2, hr1']⟩
      · intro hf
        exfalso
        rcases hr6 with ⟨u', hu', humem, pre, e2, hdec, hpre, hrn, hu2⟩ |
          ⟨hnone, _⟩
        · have hmem : e2 ∈ recs := by rw [hdec]; simp
          obtain ⟨_, hre, ⟨k, hko⟩, _⟩ := hr3 e2 hmem
          rw [hko] at hre
          have hks := hf k
          rw [← hre, hrn] at hks
          simp at hks
        · simp at hnone
    | none =>
      dsimp only
      rw [timeup_easy mw clock0 env s1 hmw]
      rw [if_pos (show (true, s1).1 = true from rfl)]
      refine ⟨hr4', ?_, ?_, ?_⟩
      · intro e he
        rw [hr1'] at he
        exact (hr3 e he).1
      · exact ⟨rest, by rw [hr2, hr1']⟩
      · intro hf
        refine ⟨rfl, ?_⟩
        have hrest : rest = [] := hrz rfl (by simp)
        rw [hr1', hr2, hrest, List.append_nil]

theorem wait_for_url_single_round_witness :
    (wait_for_url envA ["a", "b"] none none false 1 0).1 = PollResult.failure
    ∧ (wait_for_url envA ["a", "b"] none none false 1 0).2.trace.map
        (fun e => e.url) = ["a", "b"]
    ∧ (wait_for_url envA ["a", "b"] none none false 1 0).2.sleeps = [] := by
  have h := wait_for_url_single_round envA ["a", "b"] none none false 1 0
      (Or.inl rfl) (by omega)
  exact ⟨(h.2.2.2 (fun k => rfl)).1, (h.2.2.2 (fun k => rfl)).2, h.1⟩

/-- C10: for the empty candidate list wait_for_url never returns a url:
with max_wait None or non-positive it returns False after one empty
round with no fetch, no callback and no sleep; with a positive finite
max_wait and fuel covering the budget it runs empty rounds until the
deadline passes and returns False, still with no fetch and no
callback. -/
theorem wait_for_url_empty_list (env : PollEnv) (tmo : Option Int)
    (ucb : Bool) (clock0 : Nat) :
    (∀ (mw : Option Int) (fuel : Nat),
        (mw = none ∨ ∃ m, mw = some m ∧ m ≤ 0) → 1 ≤ fuel →
        (wait_for_url env [] mw tmo ucb fuel clock0).1 = PollResult.failure
        ∧ (wait_for_url env [] mw tmo ucb fuel clock0).2.trace = []
        ∧ (wait_for_url env [] mw tmo ucb fuel clock0).2.statusMsgs = []
        ∧ (wait_for_url env [] mw tmo ucb fuel clock0).2.excCalls = []
        ∧ (wait_for_url env [] mw tmo ucb fuel clock0).2.sleeps = []
        ∧ (wait_for_url env [] mw tmo ucb fuel clock0).2.fetchCnt = 0)
    ∧ (∀ m : Int, 0 < m →
        (wait_for_url env [] (some m) tmo ucb (m.toNat + 2) clock0).1
            = PollResult.failure
        ∧ (wait_for_url env [] (some m) tmo ucb (m.toNat + 2)
            clock0).2.trace = []
        ∧ (wait_for_url env [] (some m) tmo ucb (m.toNat + 2)
            clock0).2.statusMsgs = []
        ∧ (wait_for_url env [] (some m) tmo ucb (m.toNat + 2)
            clock0).2.excCalls = []
        ∧ (wait_for_url env [] (some m) tmo ucb (m.toNat + 2)
            clock0).2.fetchCnt = 0) := by
  constructor
  · intro mw fuel hmw hfuel
    obtain ⟨f, rfl⟩ : ∃ f, fuel = f + 1 := ⟨fuel - 1, by omega⟩
    rw [wait_for_url_eq]
    simp only [pollLoop, runRound]
    rw [timeup_easy mw clock0 env _ hmw]
    dsimp only
    rw [if_pos rfl]
    exact ⟨rfl, rfl, rfl, rfl, rfl, rfl⟩
  · intro m hm
    rw [wait_for_url_eq]
    have hemp := pollLoop_empty env (some m) ucb clock0 (m.toNat + 2) 0
      { clock := clock0 + env.incs 0, readCnt := 1, fetchCnt := 0,
        timeout := tmo, trace := [], statusMsgs := [], excCalls := [],
        sleeps := [] }
    have hsuc := pollLoop_success env (some m) ucb [] clock0 (m.toNat + 2) 0
      { clock := clock0 + env.incs 0, readCnt := 1, fetchCnt := 0,
        timeout := tmo, trace := [], statusMsgs := [], excCalls := [],
        sleeps := [] } (by intro e he; simp at he)
    have hterm := pollLoop_term_pos env ucb [] clock0 m hm (m.toNat + 2) 0
      { clock := clock0 + env.incs 0, readCnt := 1, fetchCnt := 0,
        timeout := tmo, trace := [], statusMsgs := [], excCalls := [],
        sleeps := [] } (by omega)
      (by push_cast; omega)
    refine ⟨?_, by simpa using hemp.1, by simpa using hemp.2.1,
      by simpa using hemp.2.2.1, by simpa using hemp.2.2.2⟩
    rcases hsuc with ⟨u, hu, humem, _⟩ | ⟨hfo, _⟩
    · simp at humem
    · rcases hfo with h | h
      · exact h
      · exact absurd h hterm

theorem wait_for_url_empty_list_witness :
    (wait_for_url envA [] none none false 1 0).1 = PollResult.failure
    ∧ (wait_for_url envA [] none none false 1 0).2.sleeps = []
    ∧ (wait_for_url envA [] (some 3) none false 5 0).1 = PollResult.failure
    ∧ (wait_for_url envA [] (some 3) none false 5 0).2.statusMsgs = [] := by
  have hA := (wait_for_url_empty_list envA none false 0).1 none 1
    (Or.inl rfl) (by omega)
  have hB := (wait_for_url_empty_list envA none false 0).2 3 (by omega)
  exact ⟨hA.1, hA.2.2.2.2.1, hB.1, hB.2.2.1⟩
